import Mathlib

/-!
Verification of the from-scratch Haar-cascade classifier sketch:
integral image, Haar feature evaluation, weak-classifier training,
cascade stages and detection, and the sliding-window scanner.

Images are 2-D grids of integer intensities, embedded as lists of rows.
Numpy slicing `a[r0:r1, c0:c1]` is embedded by `slice2d`, which clamps
to the array extent exactly as numpy does.
-/

abbrev Mat := List (List ℤ)

/-- Entry of a matrix at row `r`, column `c`; out-of-range reads give 0. -/
def entry (m : Mat) (r c : ℕ) : ℤ := (m.getD r []).getD c 0

/-- numpy `a.shape[0]`: number of rows. -/
def shape0 (m : Mat) : ℕ := m.length

/-- numpy `a.shape[1]`: number of columns (length of the first row). -/
def shape1 (m : Mat) : ℕ := (m.headD []).length

/-- A matrix whose rows all have length `W` (numpy arrays are rectangular). -/
def Rectangular (m : Mat) (W : ℕ) : Prop := ∀ row ∈ m, row.length = W

/-- numpy slice `m[r0:r1, c0:c1]` (silently clamped to the extent). -/
def slice2d (m : Mat) (r0 r1 c0 c1 : ℕ) : Mat :=
  ((m.drop r0).take (r1 - r0)).map (fun row => (row.drop c0).take (c1 - c0))

/-- numpy `.sum()` over a 2-D slice. -/
def matSum (m : Mat) : ℤ := (m.map List.sum).sum

/-- Running prefix sums along one row, starting from accumulator `acc`. -/
def cumsumRowAux (acc : ℤ) : List ℤ → List ℤ
  | [] => []
  | v :: vs => (acc + v) :: cumsumRowAux (acc + v) vs

/-- numpy `cumsum` along one row (axis 1 for a single row). -/
def cumsumRow (l : List ℤ) : List ℤ := cumsumRowAux 0 l

/-- Elementwise sum of two rows (numpy broadcasting on equal shapes). -/
def addRows (r1 r2 : List ℤ) : List ℤ := List.zipWith (· + ·) r1 r2

/-- Running elementwise sums of the remaining rows, starting from `acc`. -/
def cumsumColsAux (acc : List ℤ) : List (List ℤ) → List (List ℤ)
  | [] => []
  | r :: rs => addRows acc r :: cumsumColsAux (addRows acc r) rs

/-- numpy `cumsum(axis=0)`: each output row is the elementwise sum of all
input rows up to and including it. -/
def cumsumCols : List (List ℤ) → List (List ℤ)
  | [] => []
  | r :: rs => r :: cumsumColsAux r rs

/-- `integral_image(img) = img.cumsum(axis=0).cumsum(axis=1)`. -/
def integral_image (img : Mat) : Mat := (cumsumCols img).map cumsumRow

/-- Inclusive double prefix sum of the raw image over rows `< r`, cols `< c`. -/
def prefixSum (m : Mat) (r c : ℕ) : ℤ :=
  ∑ i ∈ Finset.range r, ∑ j ∈ Finset.range c, entry m i j

/-- Integral-image lookup with signed indices: indices below 0 read as 0,
matching the convention `I(-1, *) = I(*, -1) = 0` (argument order `x`
is the column, `y` the row, as in the source's `(x, y)` positions). -/
def iiZ (m : Mat) (x y : ℤ) : ℤ :=
  if x < 0 ∨ y < 0 then 0 else entry (integral_image m) y.toNat x.toNat

inductive FeatureType where
  | twoRect
  | threeRect
  | fourRect
  deriving DecidableEq

structure HaarFeature where
  feature_type : FeatureType
  position : ℕ × ℕ
  width : ℕ
  height : ℕ
  deriving DecidableEq

/-- `HaarFeature.compute`: for `'two-rect'`, the two numpy-slice sums
`int_img[y:y+h, x:x+w//2].sum()` and `int_img[y:y+h, x+w//2:x+w].sum()`
are subtracted; every other feature type returns 0. -/
def HaarFeature.compute (f : HaarFeature) (int_img : Mat) : ℤ :=
  match f.feature_type with
  | FeatureType.twoRect =>
      let x := f.position.1
      let y := f.position.2
      let w := f.width
      let h := f.height
      let white := matSum (slice2d int_img y (y + h) x (x + w / 2))
      let black := matSum (slice2d int_img y (y + h) (x + w / 2) (x + w))
      white - black
  | _ => 0

structure WeakClassifier where
  feature : HaarFeature
  threshold : ℚ
  polarity : ℤ
  deriving DecidableEq

/-- `predict`: 1 if `polarity * feature_value < polarity * threshold` else 0. -/
def WeakClassifier.predict (c : WeakClassifier) (int_img : Mat) : ℕ :=
  if (c.polarity : ℚ) * (c.feature.compute int_img : ℚ) < (c.polarity : ℚ) * c.threshold
  then 1 else 0

/-- `np.linspace(-1, 1, num=10)`. -/
def linspace10 : List ℚ := (List.range 10).map (fun i => -1 + 2 * (i : ℚ) / 9)

/-- The (threshold, polarity) grid in enumeration order: for each threshold,
polarity `1` then `-1`, as in the nested source loops. -/
def candidates (feature : HaarFeature) : List WeakClassifier :=
  linspace10.flatMap (fun t => [⟨feature, t, 1⟩, ⟨feature, t, -1⟩])

/-- Count of correct classifications in `train_classifier`:
positives predicted 1 plus negatives predicted 0 (integral images are
built per sample inside the loop, as in the source). -/
def correctCount (c : WeakClassifier) (pos neg : List Mat) : ℕ :=
  pos.countP (fun img => c.predict (integral_image img) == 1) +
  neg.countP (fun img => c.predict (integral_image img) == 0)

/-- `accuracy = correct / (len(pos_imgs) + len(neg_imgs))`. -/
def accuracy (c : WeakClassifier) (pos neg : List Mat) : ℚ :=
  (correctCount c pos neg : ℚ) / ((pos.length + neg.length : ℕ) : ℚ)

/-- The shared selection loop: keep the first candidate whose score strictly
exceeds the running best, starting from `(None, 0)`. -/
def selectBest (score : WeakClassifier → ℚ) (cands : List WeakClassifier) :
    Option WeakClassifier × ℚ :=
  cands.foldl (fun acc c => if acc.2 < score c then (some c, score c) else acc)
    (none, 0)

/-- `train_classifier(pos_imgs, neg_imgs, feature)`. -/
def train_classifier (pos neg : List Mat) (feature : HaarFeature) :
    Option WeakClassifier :=
  (selectBest (fun c => accuracy c pos neg) (candidates feature)).1

/-- The `predictions` total in `adaboost_train`: positives contribute
`predict`, negatives contribute `1 - predict`. -/
def adaboostScore (c : WeakClassifier) (posII negII : List Mat) : ℕ :=
  (posII.map (fun ii => c.predict ii)).sum +
  (negII.map (fun ii => 1 - c.predict ii)).sum

/-- `accuracy = sum(predictions) / (num_pos + num_neg)` in `adaboost_train`. -/
def adaboostAccuracy (c : WeakClassifier) (posII negII : List Mat) : ℚ :=
  (adaboostScore c posII negII : ℚ) / ((posII.length + negII.length : ℕ) : ℚ)

/-- The per-feature inner search of `adaboost_train`. -/
def adaboost_best (posII negII : List Mat) (feature : HaarFeature) :
    Option WeakClassifier :=
  (selectBest (fun c => adaboostAccuracy c posII negII) (candidates feature)).1

/-- `adaboost_train`: one best classifier per feature. -/
def adaboost_train (features : List HaarFeature) (posII negII : List Mat) :
    List (Option WeakClassifier) :=
  features.map (fun f => adaboost_best posII negII f)

/-- The weight vector `adaboost_train` initializes (and then never reads):
`np.hstack((np.ones(num_pos)/(2*num_pos), np.ones(num_neg)/(2*num_neg)))`. -/
def adaboost_weights (num_pos num_neg : ℕ) : List ℚ :=
  List.replicate num_pos (1 / (2 * (num_pos : ℚ))) ++
  List.replicate num_neg (1 / (2 * (num_neg : ℚ)))

/-- Modelled from the spec: the weighted selection score the spec ascribes
to the boosting trainer — a weighted sum of correct classifications,
pairing the first `num_pos` weights with the positive samples and the
rest with the negative samples. -/
def weightedScore (c : WeakClassifier) (posII negII : List Mat) (w : List ℚ) : ℚ :=
  (((w.take posII.length).zip posII).map
    (fun p => p.1 * (c.predict p.2 : ℚ))).sum +
  (((w.drop posII.length).zip negII).map
    (fun p => p.1 * (1 - (c.predict p.2 : ℚ)))).sum

structure CascadeStage where
  classifiers : List WeakClassifier
  threshold : ℚ

/-- `classify`: pass iff the sum of the classifiers' 0/1 predictions is at
least the stage threshold. -/
def CascadeStage.classify (s : CascadeStage) (int_img : Mat) : Bool :=
  decide (s.threshold ≤ (((s.classifiers.map (fun c => c.predict int_img)).sum : ℕ) : ℚ))

structure HaarCascade where
  stages : List CascadeStage

/-- The stage loop of `HaarCascade.detect`: return `false` at the first
stage whose `classify` fails, `true` if all pass. -/
def detectStages (int_img : Mat) : List CascadeStage → Bool
  | [] => true
  | s :: rest => if s.classify int_img then detectStages int_img rest else false

/-- `HaarCascade.detect`: build one integral image, then run the stages. -/
def HaarCascade.detect (hc : HaarCascade) (image : Mat) : Bool :=
  detectStages (integral_image image) hc.stages

/-- The classifier loop of `detect_faces`: reject on the first classifier
predicting 0. -/
def allPass (int_img : Mat) : List WeakClassifier → Bool
  | [] => true
  | c :: rest => if c.predict int_img = 0 then false else allPass int_img rest

/-- `detect_faces(img, classifiers)`. -/
def detect_faces (img : Mat) (classifiers : List WeakClassifier) : Bool :=
  allPass (integral_image img) classifiers

/-- Python `range(start, stop, step)` for positive `step`, via fuel. -/
def pyRangeAux (step : ℤ) : ℕ → ℤ → ℤ → List ℤ
  | 0, _, _ => []
  | fuel + 1, cur, stop =>
      if cur < stop then cur :: pyRangeAux step fuel (cur + step) stop else []

/-- `range(start, stop, step)`; empty when `stop ≤ start`. -/
def pyRange (start stop step : ℤ) : List ℤ :=
  pyRangeAux step (stop - start).toNat start stop

/-- `sliding_window(image, cascade, window_size, step_size)`: loop bounds are
`range(0, shape0 - window_h, step)` and `range(0, shape1 - window_w, step)`;
accepted windows are recorded as `(x, y, w, h)`. -/
def sliding_window (image : Mat) (cascade : HaarCascade)
    (window_size : ℕ × ℕ) (step_size : ℤ) : List (ℕ × ℕ × ℕ × ℕ) :=
  (pyRange 0 ((shape0 image : ℤ) - window_size.2) step_size).flatMap (fun y =>
    (pyRange 0 ((shape1 image : ℤ) - window_size.1) step_size).filterMap (fun x =>
      let window := slice2d image y.toNat (y.toNat + window_size.2)
        x.toNat (x.toNat + window_size.1)
      if cascade.detect window then
        some (x.toNat, y.toNat, window_size.1, window_size.2)
      else none))

inductive HaarError where
  | outOfBounds
  deriving DecidableEq

/-- Modelled from the spec: the error behavior the spec ascribes to
`HaarFeature.compute` — fail with `OutOfBounds` when the feature's
rectangle exceeds the integral image's extent, otherwise return the
response. Stated for comparison with the source's total `compute`. -/
def computeSpec (f : HaarFeature) (int_img : Mat) : Except HaarError ℤ :=
  if f.position.2 + f.height ≤ shape0 int_img ∧ f.position.1 + f.width ≤ shape1 int_img
  then Except.ok (f.compute int_img)
  else Except.error HaarError.outOfBounds

/-- The 4×4 synthetic sample from the spec's end-to-end scenario. -/
def sample4 : Mat := [[1,1,2,2],[1,1,2,2],[3,3,4,4],[3,3,4,4]]

/-- An all-zero 28×28 image for the scanner boundary scenario. -/
def zeros28 : Mat := List.replicate 28 (List.replicate 28 (0 : ℤ))

/-- An all-zero 24×24 image (exact window fit). -/
def zeros24 : Mat := List.replicate 24 (List.replicate 24 (0 : ℤ))

/-- A 1×2 two-rect feature: its response on a 1×2 matrix `[[a, b]]` taken as
an integral image is `a - b`, so sample feature values can be chosen freely. -/
def feat4 : HaarFeature := ⟨FeatureType.twoRect, (0, 0), 2, 1⟩

/-- One positive sample (feature value 0) for the boosting scenario. -/
def posII4 : List Mat := [[[0, 0]]]

/-- Three negative samples (feature values 2, −2, 0). -/
def negII4 : List Mat := [[[2, 0]], [[0, 2]], [[0, 0]]]

/-- A two-rect feature whose 4×4 rectangle exceeds small images. -/
def featX : HaarFeature := ⟨FeatureType.twoRect, (0, 0), 4, 4⟩

/-- A concrete rectangular 2×2 integral image. -/
def rect2 : Mat := [[1, 2], [3, 4]]

/-- Claim C1 (code_bug evidence): on the spec's 4×4 sample, the raw left and
right half sums are 16 and 24 (so the intended two-rect response is −8), but
`compute` applied to the integral image returns −94, because it sums
integral-image entries over each half instead of using corner lookups. -/
theorem compute_on_sample4_contradicts_raw_halves :
    HaarFeature.compute ⟨FeatureType.twoRect, (0, 0), 4, 4⟩ (integral_image sample4) = -94 ∧
    matSum (slice2d sample4 0 4 0 2) = 16 ∧
    matSum (slice2d sample4 0 4 2 4) = 24 := by
  decide

/-- Claim C8: a cascade with no stages accepts every image, and
`detect_faces` with no classifiers likewise returns true. -/
theorem empty_cascade_accepts (img : Mat) :
    (HaarCascade.mk []).detect img = true ∧ detect_faces img [] = true :=
  ⟨rfl, rfl⟩

/-- Claim C9: every prediction entering a stage sum is 0 or 1, so the stage
sum is non-negative and a stage whose threshold is ≤ 0 accepts every
integral image. -/
theorem stage_nonpos_threshold_accepts (s : CascadeStage) (int_img : Mat)
    (h : s.threshold ≤ 0) :
    (∀ c ∈ s.classifiers, c.predict int_img = 0 ∨ c.predict int_img = 1) ∧
    s.classify int_img = true := by
  constructor
  · intro c _
    unfold WeakClassifier.predict
    split
    · exact Or.inr rfl
    · exact Or.inl rfl
  · unfold CascadeStage.classify
    exact decide_eq_true (h.trans (Nat.cast_nonneg _))

/-- Witness for C9: a concrete stage with threshold 0 on a concrete image. -/
theorem stage_nonpos_threshold_accepts_witness :
    (CascadeStage.mk [] 0).threshold ≤ 0 ∧
    ((∀ c ∈ (CascadeStage.mk [] 0).classifiers,
        c.predict [[0]] = 0 ∨ c.predict [[0]] = 1) ∧
      (CascadeStage.mk [] 0).classify [[0]] = true) :=
  ⟨le_refl 0, stage_nonpos_threshold_accepts (CascadeStage.mk [] 0) [[0]] (le_refl 0)⟩

theorem pyRangeAux_mem (step : ℤ) (hstep : 0 < step) (fuel : ℕ) :
    ∀ (cur stop z : ℤ), z ∈ pyRangeAux step fuel cur stop →
      cur ≤ z ∧ z < stop ∧ ∃ k : ℕ, z = cur + step * k := by
  induction fuel with
  | zero => intro cur stop z h; simp [pyRangeAux] at h
  | succ n ih =>
    intro cur stop z h
    unfold pyRangeAux at h
    split at h
    · rcases List.mem_cons.mp h with rfl | hmem
      · exact ⟨le_refl _, by assumption, 0, by ring⟩
      · obtain ⟨h1, h2, k, hk⟩ := ih (cur + step) stop z hmem
        exact ⟨by linarith, h2, k + 1, by rw [hk]; push_cast; ring⟩
    · simp at h

theorem pyRange_mem (start stop step z : ℤ) (hstep : 0 < step)
    (h : z ∈ pyRange start stop step) :
    start ≤ z ∧ z < stop ∧ ∃ k : ℕ, z = start + step * k :=
  pyRangeAux_mem step hstep _ start stop z h

theorem pyRange_eq_nil (start stop step : ℤ) (h : stop ≤ start) :
    pyRange start stop step = [] := by
  unfold pyRange
  rw [Int.toNat_of_nonpos (by linarith)]
  rfl

/-- Claim C10: if the image is no taller than the window or no wider than
the window (including the exact-fit case), `sliding_window` returns the
empty list. -/
theorem sliding_window_small_image_empty (image : Mat) (cascade : HaarCascade)
    (window_size : ℕ × ℕ) (step_size : ℤ)
    (h : shape0 image ≤ window_size.2 ∨ shape1 image ≤ window_size.1) :
    sliding_window image cascade window_size step_size = [] := by
  unfold sliding_window
  rcases h with h | h
  · rw [pyRange_eq_nil _ _ _ (sub_nonpos.mpr (by exact_mod_cast h))]
    rfl
  · have hin : pyRange 0 ((shape1 image : ℤ) - window_size.1) step_size = [] :=
      pyRange_eq_nil _ _ _ (sub_nonpos.mpr (by exact_mod_cast h))
    simp only [hin, List.filterMap_nil]
    simp

/-- Witness for C10: the 24×24 all-zero image with a 24×24 window (exact
fit) yields no placements. -/
theorem sliding_window_small_image_empty_witness :
    (shape0 zeros24 ≤ (24, 24).2 ∨ shape1 zeros24 ≤ (24, 24).1) ∧
    sliding_window zeros24 (HaarCascade.mk []) (24, 24) 4 = [] :=
  ⟨Or.inl (by decide),
    sliding_window_small_image_empty zeros24 (HaarCascade.mk []) (24, 24) 4
      (Or.inl (by decide))⟩

/-- Claim C3 (amended): every record yielded by `sliding_window` carries the
window size and an origin `(x, y)` with `y ∈ [0, shape0 − h)` and
`x ∈ [0, shape1 − w)`, both multiples of the stride. -/
theorem sliding_window_origin_bounds (image : Mat) (cascade : HaarCascade)
    (w h : ℕ) (step : ℤ) (hstep : 0 < step) (x y rwidth rheight : ℕ)
    (hmem : (x, y, rwidth, rheight) ∈ sliding_window image cascade (w, h) step) :
    rwidth = w ∧ rheight = h ∧ (y : ℤ) < (shape0 image : ℤ) - h ∧
      (x : ℤ) < (shape1 image : ℤ) - w ∧
      (∃ i : ℕ, (y : ℤ) = step * i) ∧ (∃ j : ℕ, (x : ℤ) = step * j) := by
  unfold sliding_window at hmem
  simp only [List.mem_flatMap, List.mem_filterMap] at hmem
  obtain ⟨yz, hymem, xz, hxmem, hif⟩ := hmem
  obtain ⟨hy0, hylt, ky, hky⟩ := pyRange_mem _ _ _ _ hstep hymem
  obtain ⟨hx0, hxlt, kx, hkx⟩ := pyRange_mem _ _ _ _ hstep hxmem
  split at hif
  · simp only [Option.some.injEq, Prod.mk.injEq] at hif
    obtain ⟨hxz, hyz, hw, hh⟩ := hif
    subst hxz hyz
    have hyN : ((yz.toNat : ℤ)) = yz := Int.toNat_of_nonneg hy0
    have hxN : ((xz.toNat : ℤ)) = xz := Int.toNat_of_nonneg hx0
    refine ⟨hw.symm, hh.symm, ?_, ?_, ⟨ky, ?_⟩, ⟨kx, ?_⟩⟩
    · rw [hyN]; exact hylt
    · rw [hxN]; exact hxlt
    · rw [hyN, hky]; ring
    · rw [hxN, hkx]; ring
  · simp at hif

/-- Counterexample for C3 as stated: scanning the 28×28 image with a 24×24
window and stride 4 (under an always-accepting empty cascade) produces only
the origin `(0, 0)`; the origin `(4, 0)` the claim promises is never
produced (nor is `(24, 0)`). -/
theorem sliding_window_28_misses_4_0 :
    sliding_window zeros28 (HaarCascade.mk []) (24, 24) 4 = [(0, 0, 24, 24)] ∧
    (4, 0, 24, 24) ∉ sliding_window zeros28 (HaarCascade.mk []) (24, 24) 4 ∧
    (24, 0, 24, 24) ∉ sliding_window zeros28 (HaarCascade.mk []) (24, 24) 4 := by
  decide

/-- Witness for C3: the origin `(0, 0)` produced on the 28×28 scan satisfies
the amended bounds. -/
theorem sliding_window_origin_bounds_witness :
    (0 : ℤ) < 4 ∧
    ((0, 0, 24, 24) ∈ sliding_window zeros28 (HaarCascade.mk []) (24, 24) 4) ∧
    (24 = 24 ∧ 24 = 24 ∧ ((0 : ℕ) : ℤ) < (shape0 zeros28 : ℤ) - (24 : ℕ) ∧
      ((0 : ℕ) : ℤ) < (shape1 zeros28 : ℤ) - (24 : ℕ) ∧
      (∃ i : ℕ, ((0 : ℕ) : ℤ) = 4 * i) ∧ (∃ j : ℕ, ((0 : ℕ) : ℤ) = 4 * j)) :=
  ⟨by decide, by decide,
    sliding_window_origin_bounds zeros28 (HaarCascade.mk []) 24 24 4 (by decide)
      0 0 24 24 (by decide)⟩

theorem detectStages_append (int_img : Mat) (l1 l2 : List CascadeStage) :
    detectStages int_img (l1 ++ l2) =
      (detectStages int_img l1 && detectStages int_img l2) := by
  induction l1 with
  | nil => simp [detectStages]
  | cons s rest ih =>
    simp only [List.cons_append, detectStages]
    split
    · exact ih
    · simp

theorem detectStages_all (int_img : Mat) (l : List CascadeStage) :
    detectStages int_img l = true ↔ ∀ t ∈ l, t.classify int_img = true := by
  induction l with
  | nil => simp [detectStages]
  | cons s rest ih =>
    simp only [detectStages]
    split
    · rw [ih]
      constructor
      · intro hall t ht
        rcases List.mem_cons.mp ht with rfl | ht
        · assumption
        · exact hall t ht
      · intro hall t ht
        exact hall t (List.mem_cons_of_mem s ht)
    · constructor
      · intro hfalse; exact absurd hfalse (by simp)
      · intro hall
        exact absurd (hall s (List.mem_cons_self s rest)) (by simp_all)

/-- Claim C5: stages are evaluated in declaration order; as soon as a stage
rejects, `detect` returns `false` and the result is independent of every
later stage (it is unchanged under replacing the tail); and `detect`
returns `true` exactly when every stage passes. -/
theorem detect_short_circuit (image : Mat) (pre post post' : List CascadeStage)
    (s : CascadeStage)
    (hpre : ∀ t ∈ pre, t.classify (integral_image image) = true)
    (hs : s.classify (integral_image image) = false) :
    (HaarCascade.mk (pre ++ s :: post)).detect image = false ∧
    (HaarCascade.mk (pre ++ s :: post)).detect image =
      (HaarCascade.mk (pre ++ s :: post')).detect image ∧
    ∀ hc : HaarCascade, (hc.detect image = true ↔
      ∀ t ∈ hc.stages, t.classify (integral_image image) = true) := by
  have key : ∀ rest : List CascadeStage,
      detectStages (integral_image image) (pre ++ s :: rest) = false := by
    intro rest
    rw [detectStages_append, (detectStages_all _ _).mpr hpre]
    simp [detectStages, hs]
  refine ⟨key post, ?_, fun hc => detectStages_all _ _⟩
  show detectStages _ _ = detectStages _ _
  rw [key post, key post']

/-- Witness for C5: a cascade whose first stage (empty classifier list,
threshold 1) always rejects, followed by an always-accepting stage. -/
theorem detect_short_circuit_witness :
    (∀ t ∈ ([] : List CascadeStage), t.classify (integral_image [[1]]) = true) ∧
    (CascadeStage.mk [] 1).classify (integral_image [[1]]) = false ∧
    ((HaarCascade.mk ([] ++ CascadeStage.mk [] 1 :: [CascadeStage.mk [] 0])).detect [[1]] = false ∧
      (HaarCascade.mk ([] ++ CascadeStage.mk [] 1 :: [CascadeStage.mk [] 0])).detect [[1]] =
        (HaarCascade.mk ([] ++ CascadeStage.mk [] 1 :: [])).detect [[1]] ∧
      ∀ hc : HaarCascade, (hc.detect [[1]] = true ↔
        ∀ t ∈ hc.stages, t.classify (integral_image [[1]]) = true)) :=
  ⟨by simp, by decide,
    detect_short_circuit [[1]] [] [CascadeStage.mk [] 0] [] (CascadeStage.mk [] 1)
      (by simp) (by decide)⟩

theorem predict_mem01 (c : WeakClassifier) (int_img : Mat) :
    c.predict int_img = 0 ∨ c.predict int_img = 1 := by
  unfold WeakClassifier.predict
  split
  · exact Or.inr rfl
  · exact Or.inl rfl

theorem sum_map_predict (c : WeakClassifier) (l : List Mat) :
    (l.map (fun ii => c.predict ii)).sum = l.countP (fun ii => c.predict ii == 1) := by
  induction l with
  | nil => rfl
  | cons a t ih =>
    rcases predict_mem01 c a with h | h <;>
      simp [List.countP_cons, ih, h, Nat.add_comm]

theorem sum_map_one_sub_predict (c : WeakClassifier) (l : List Mat) :
    (l.map (fun ii => 1 - c.predict ii)).sum = l.countP (fun ii => c.predict ii == 0) := by
  induction l with
  | nil => rfl
  | cons a t ih =>
    rcases predict_mem01 c a with h | h <;>
      simp [List.countP_cons, ih, h, Nat.add_comm]

/-- Claim C4 (amended): the selection score in `adaboost_train` is the raw
count of correct classifications (positives predicted 1 plus negatives
predicted 0) divided by the total sample count; no per-sample weight
enters the selection. -/
theorem adaboost_accuracy_is_raw_count (c : WeakClassifier) (posII negII : List Mat) :
    adaboostAccuracy c posII negII =
      ((posII.countP (fun ii => c.predict ii == 1) +
        negII.countP (fun ii => c.predict ii == 0) : ℕ) : ℚ) /
        ((posII.length + negII.length : ℕ) : ℚ) := by
  unfold adaboostAccuracy adaboostScore
  rw [sum_map_predict, sum_map_one_sub_predict]

/-- Counterexample for C4 as stated: with one positive and three negative
samples, the classifier `adaboost_train` selects (threshold −1, polarity 1)
maximizes the raw count, yet under the weight vector the trainer itself
initializes, the enumerated candidate (threshold −1, polarity −1) has a
strictly larger weighted sum of correct classifications — so the selection
score is not the weighted sum. -/
theorem adaboost_best_ignores_weights :
    adaboost_best posII4 negII4 feat4 = some ⟨feat4, -1, 1⟩ ∧
    (⟨feat4, -1, -1⟩ : WeakClassifier) ∈ candidates feat4 ∧
    weightedScore ⟨feat4, -1, 1⟩ posII4 negII4 (adaboost_weights 1 3) <
      weightedScore ⟨feat4, -1, -1⟩ posII4 negII4 (adaboost_weights 1 3) := by
  have h1 : HaarFeature.compute feat4 [[0, 0]] = 0 := by decide
  have h2 : HaarFeature.compute feat4 [[2, 0]] = 2 := by decide
  have h3 : HaarFeature.compute feat4 [[0, 2]] = -2 := by decide
  refine ⟨?_, ?_, ?_⟩
  · norm_num [adaboost_best, selectBest, candidates, linspace10, List.range_succ,
      adaboostAccuracy, adaboostScore, WeakClassifier.predict, posII4, negII4,
      h1, h2, h3]
  · norm_num [candidates, linspace10, List.range_succ]
  · norm_num [weightedScore, adaboost_weights, WeakClassifier.predict, posII4, negII4,
      h1, h2, h3, List.replicate]

theorem selectBest_skip (score : WeakClassifier → ℚ) (l : List WeakClassifier)
    (b : Option WeakClassifier) (a : ℚ) (h : ∀ c ∈ l, score c ≤ a) :
    l.foldl (fun acc c => if acc.2 < score c then (some c, score c) else acc) (b, a)
      = (b, a) := by
  induction l generalizing b a with
  | nil => rfl
  | cons c t ih =>
    simp only [List.foldl_cons]
    rw [if_neg (not_lt.mpr (h c (List.mem_cons_self c t)))]
    exact ih b a (fun x hx => h x (List.mem_cons_of_mem c hx))

theorem selectBest_first_argmax (score : WeakClassifier → ℚ)
    (l : List WeakClassifier) :
    ∀ (b : Option WeakClassifier) (a : ℚ), (∃ c ∈ l, a < score c) →
      ∃ pre x post, l = pre ++ x :: post ∧
        l.foldl (fun acc c => if acc.2 < score c then (some c, score c) else acc) (b, a)
          = (some x, score x) ∧
        a < score x ∧ (∀ c ∈ pre, score c < score x) ∧ (∀ c ∈ l, score c ≤ score x) := by
  induction l with
  | nil => intro b a h; simp at h
  | cons c t ih =>
    intro b a h
    simp only [List.foldl_cons]
    by_cases hc : a < score c
    · rw [if_pos hc]
      by_cases ht : ∃ d ∈ t, score c < score d
      · obtain ⟨pre, x, post, heq, hfold, hlt, hpre, hall⟩ := ih (some c) (score c) ht
        refine ⟨c :: pre, x, post, by rw [heq, List.cons_append], hfold, lt_trans hc hlt, ?_, ?_⟩
        · intro d hd
          rcases List.mem_cons.mp hd with rfl | hd
          · exact hlt
          · exact hpre d hd
        · intro d hd
          rcases List.mem_cons.mp hd with rfl | hd
          · exact le_of_lt hlt
          · exact hall d hd
      · push_neg at ht
        refine ⟨[], c, t, rfl, selectBest_skip score t (some c) (score c) ht, hc, ?_, ?_⟩
        · intro d hd; simp at hd
        · intro d hd
          rcases List.mem_cons.mp hd with rfl | hd
          · exact le_refl _
          · exact ht d hd
    · rw [if_neg hc]
      have h2 : ∃ d ∈ t, a < score d := by
        obtain ⟨d, hd, hda⟩ := h
        rcases List.mem_cons.mp hd with rfl | hd
        · exact absurd hda hc
        · exact ⟨d, hd, hda⟩
      obtain ⟨pre, x, post, heq, hfold, hlt, hpre, hall⟩ := ih b a h2
      refine ⟨c :: pre, x, post, by rw [heq, List.cons_append], hfold, hlt, ?_, ?_⟩
      · intro d hd
        rcases List.mem_cons.mp hd with rfl | hd
        · exact lt_of_le_of_lt (not_lt.mp hc) hlt
        · exact hpre d hd
      · intro d hd
        rcases List.mem_cons.mp hd with rfl | hd
        · exact le_trans (not_lt.mp hc) (le_of_lt hlt)
        · exact hall d hd

theorem exists_positive_candidate (pos neg : List Mat) (feature : HaarFeature)
    (hpos : pos ≠ []) :
    ∃ c ∈ candidates feature, 0 < accuracy c pos neg := by
  obtain ⟨img, rest, rfl⟩ := List.exists_cons_of_ne_nil hpos
  by_cases hlt : ((feature.compute (integral_image img) : ℤ) : ℚ) < 1
  · refine ⟨⟨feature, 1, 1⟩, ?_, ?_⟩
    · refine List.mem_flatMap.mpr ⟨1, ?_, List.mem_cons_self _ _⟩
      unfold linspace10
      refine List.mem_map.mpr ⟨9, by decide, by norm_num⟩
    · unfold accuracy
      apply div_pos
      · have hp1 : (⟨feature, 1, 1⟩ : WeakClassifier).predict (integral_image img) = 1 := by
          unfold WeakClassifier.predict
          rw [if_pos]
          push_cast
          simpa using hlt
        have hcount : 1 ≤ correctCount ⟨feature, 1, 1⟩ (img :: rest) neg := by
          unfold correctCount
          have h1 : 1 ≤ (img :: rest).countP
              (fun im => (⟨feature, 1, 1⟩ : WeakClassifier).predict (integral_image im) == 1) := by
            rw [List.countP_cons]
            simp [hp1]
          exact le_trans h1 (Nat.le_add_right _ _)
        exact_mod_cast Nat.lt_of_lt_of_le Nat.zero_lt_one hcount
      · have hlen : 0 < (img :: rest).length + neg.length := Nat.lt_of_lt_of_le (by simp) (Nat.le_add_right _ _)
        exact_mod_cast hlen
  · refine ⟨⟨feature, -1, -1⟩, ?_, ?_⟩
    · refine List.mem_flatMap.mpr ⟨-1, ?_, ?_⟩
      · unfold linspace10
        refine List.mem_map.mpr ⟨0, by decide, by norm_num⟩
      · exact List.mem_cons_of_mem _ (List.mem_cons_self _ _)
    · unfold accuracy
      apply div_pos
      · have hp1 : (⟨feature, -1, -1⟩ : WeakClassifier).predict (integral_image img) = 1 := by
          unfold WeakClassifier.predict
          rw [if_pos]
          push_cast
          nlinarith [not_lt.mp hlt]
        have hcount : 1 ≤ correctCount ⟨feature, -1, -1⟩ (img :: rest) neg := by
          unfold correctCount
          have h1 : 1 ≤ (img :: rest).countP
              (fun im => (⟨feature, -1, -1⟩ : WeakClassifier).predict (integral_image im) == 1) := by
            rw [List.countP_cons]
            simp [hp1]
          exact le_trans h1 (Nat.le_add_right _ _)
        exact_mod_cast Nat.lt_of_lt_of_le Nat.zero_lt_one hcount
      · have hlen : 0 < (img :: rest).length + neg.length := Nat.lt_of_lt_of_le (by simp) (Nat.le_add_right _ _)
        exact_mod_cast hlen

/-- Claim C6: with non-empty positive and negative sample sets,
`train_classifier` returns the first candidate of the enumerated
threshold×polarity grid achieving the maximal training accuracy: its
accuracy is ≥ every enumerated candidate's, and every candidate listed
before it is strictly worse (the tie-break prefers the first). -/
theorem train_classifier_first_argmax (pos neg : List Mat) (feature : HaarFeature)
    (hpos : pos ≠ []) (_hneg : neg ≠ []) :
    ∃ pre c post, candidates feature = pre ++ c :: post ∧
      train_classifier pos neg feature = some c ∧
      (∀ d ∈ candidates feature, accuracy d pos neg ≤ accuracy c pos neg) ∧
      (∀ d ∈ pre, accuracy d pos neg < accuracy c pos neg) := by
  obtain ⟨c0, hc0mem, hc0⟩ := exists_positive_candidate pos neg feature hpos
  obtain ⟨pre, x, post, heq, hfold, hlt, hpre, hall⟩ :=
    selectBest_first_argmax (fun c => accuracy c pos neg) (candidates feature) none 0
      ⟨c0, hc0mem, hc0⟩
  refine ⟨pre, x, post, heq, ?_, hall, hpre⟩
  unfold train_classifier selectBest
  rw [hfold]

/-- Witness for C6: a concrete one-positive, one-negative training set. -/
theorem train_classifier_first_argmax_witness :
    posII4 ≠ [] ∧ ([[[2, 0]]] : List Mat) ≠ [] ∧
    (∃ pre c post, candidates feat4 = pre ++ c :: post ∧
      train_classifier posII4 [[[2, 0]]] feat4 = some c ∧
      (∀ d ∈ candidates feat4,
        accuracy d posII4 [[[2, 0]]] ≤ accuracy c posII4 [[[2, 0]]]) ∧
      (∀ d ∈ pre, accuracy d posII4 [[[2, 0]]] < accuracy c posII4 [[[2, 0]]])) :=
  ⟨by decide, by decide,
    train_classifier_first_argmax posII4 [[[2, 0]]] feat4 (by decide) (by decide)⟩

theorem cumsumRowAux_length (acc : ℤ) (l : List ℤ) :
    (cumsumRowAux acc l).length = l.length := by
  induction l generalizing acc with
  | nil => rfl
  | cons v vs ih => simp [cumsumRowAux, ih]

theorem cumsumRow_length (l : List ℤ) : (cumsumRow l).length = l.length :=
  cumsumRowAux_length 0 l

theorem cumsumRowAux_getD (l : List ℤ) :
    ∀ (acc : ℤ) (j : ℕ), j < l.length →
      (cumsumRowAux acc l).getD j 0 = acc + ∑ k ∈ Finset.range (j + 1), l.getD k 0 := by
  induction l with
  | nil => intro acc j h; simp at h
  | cons v vs ih =>
    intro acc j h
    match j with
    | 0 => simp [cumsumRowAux, Finset.sum_range_one]
    | j + 1 =>
      have hj : j < vs.length := by simpa using h
      rw [show cumsumRowAux acc (v :: vs) = (acc + v) :: cumsumRowAux (acc + v) vs from rfl]
      rw [List.getD_cons_succ, ih (acc + v) j hj,
        Finset.sum_range_succ' (fun k => (v :: vs).getD k 0) (j + 1)]
      simp only [List.getD_cons_succ, List.getD_cons_zero]
      ring

theorem entry_cons_succ (r : List ℤ) (m : Mat) (i j : ℕ) :
    entry (r :: m) (i + 1) j = entry m i j := rfl

theorem entry_cons_zero (r : List ℤ) (m : Mat) (j : ℕ) :
    entry (r :: m) 0 j = r.getD j 0 := rfl

theorem addRows_length (r1 r2 : List ℤ) :
    (addRows r1 r2).length = min r1.length r2.length := by
  unfold addRows
  exact List.length_zipWith _ r1 r2

theorem addRows_getD (r1 r2 : List ℤ) (j : ℕ) (h1 : j < r1.length) (h2 : j < r2.length) :
    (addRows r1 r2).getD j 0 = r1.getD j 0 + r2.getD j 0 := by
  unfold addRows
  rw [List.getD_eq_getElem?_getD,
    List.getElem?_eq_getElem (by rw [List.length_zipWith]; omega)]
  rw [List.getElem_zipWith]
  simp [List.getD_eq_getElem?_getD, List.getElem?_eq_getElem h1,
    List.getElem?_eq_getElem h2]

theorem cumsumColsAux_length (acc : List ℤ) (rs : List (List ℤ)) :
    (cumsumColsAux acc rs).length = rs.length := by
  induction rs generalizing acc with
  | nil => rfl
  | cons r t ih => simp [cumsumColsAux, ih]

theorem cumsumCols_length (m : Mat) : (cumsumCols m).length = m.length := by
  cases m with
  | nil => rfl
  | cons r t => simp [cumsumCols, cumsumColsAux_length]

theorem cumsumColsAux_rect (W : ℕ) (rs : List (List ℤ)) :
    ∀ (acc : List ℤ), acc.length = W → (∀ r ∈ rs, r.length = W) →
      ∀ row ∈ cumsumColsAux acc rs, row.length = W := by
  induction rs with
  | nil => intro acc _ _ row h; simp [cumsumColsAux] at h
  | cons r t ih =>
    intro acc hacc hrs row hrow
    have haddlen : (addRows acc r).length = W := by
      rw [addRows_length, hacc, hrs r (List.mem_cons_self r t)]
      exact Nat.min_self W
    rw [show cumsumColsAux acc (r :: t) =
      addRows acc r :: cumsumColsAux (addRows acc r) t from rfl] at hrow
    rcases List.mem_cons.mp hrow with rfl | hrow
    · exact haddlen
    · exact ih (addRows acc r) haddlen
        (fun s hs => hrs s (List.mem_cons_of_mem r hs)) row hrow

theorem cumsumCols_rect (m : Mat) (W : ℕ) (h : Rectangular m W) :
    Rectangular (cumsumCols m) W := by
  cases m with
  | nil => intro row hr; simp [cumsumCols] at hr
  | cons r t =>
    intro row hrow
    rw [show cumsumCols (r :: t) = r :: cumsumColsAux r t from rfl] at hrow
    rcases List.mem_cons.mp hrow with rfl | hrow
    · exact h row (List.mem_cons_self _ _)
    · exact cumsumColsAux_rect W t r (h r (List.mem_cons_self r t))
        (fun s hs => h s (List.mem_cons_of_mem r hs)) row hrow

theorem cumsumColsAux_entry (W : ℕ) (rs : List (List ℤ)) :
    ∀ (acc : List ℤ), acc.length = W → (∀ r ∈ rs, r.length = W) →
      ∀ i j, i < rs.length → j < W →
        entry (cumsumColsAux acc rs) i j =
          acc.getD j 0 + ∑ k ∈ Finset.range (i + 1), entry rs k j := by
  induction rs with
  | nil => intro acc _ _ i j hi _; simp at hi
  | cons r t ih =>
    intro acc hacc hrs i j hi hj
    have hrW : r.length = W := hrs r (List.mem_cons_self r t)
    have haddlen : (addRows acc r).length = W := by
      rw [addRows_length, hacc, hrW]
      exact Nat.min_self W
    rw [show cumsumColsAux acc (r :: t) =
      addRows acc r :: cumsumColsAux (addRows acc r) t from rfl]
    match i with
    | 0 =>
      rw [entry_cons_zero, addRows_getD acc r j (by omega) (by omega)]
      simp [Finset.sum_range_one, entry_cons_zero]
    | i + 1 =>
      have hit : i < t.length := by simpa using hi
      rw [entry_cons_succ,
        ih (addRows acc r) haddlen (fun s hs => hrs s (List.mem_cons_of_mem r hs)) i j hit hj,
        addRows_getD acc r j (by omega) (by omega),
        Finset.sum_range_succ' (fun k => entry (r :: t) k j) (i + 1)]
      simp only [entry_cons_succ, entry_cons_zero]
      ring

theorem cumsumCols_entry (m : Mat) (W : ℕ) (h : Rectangular m W) (i j : ℕ)
    (hi : i < m.length) (hj : j < W) :
    entry (cumsumCols m) i j = ∑ k ∈ Finset.range (i + 1), entry m k j := by
  cases m with
  | nil => simp at hi
  | cons r t =>
    rw [show cumsumCols (r :: t) = r :: cumsumColsAux r t from rfl]
    match i with
    | 0 =>
      rw [entry_cons_zero]
      simp [Finset.sum_range_one, entry_cons_zero]
    | i + 1 =>
      have hrW : r.length = W := h r (List.mem_cons_self r t)
      have hit : i < t.length := by simpa using hi
      rw [entry_cons_succ,
        cumsumColsAux_entry W t r hrW (fun s hs => h s (List.mem_cons_of_mem r hs)) i j hit hj,
        Finset.sum_range_succ' (fun k => entry (r :: t) k j) (i + 1)]
      simp only [entry_cons_succ, entry_cons_zero]
      ring

theorem integral_image_length (m : Mat) : (integral_image m).length = m.length := by
  unfold integral_image
  rw [List.length_map, cumsumCols_length]

theorem integral_image_rect (m : Mat) (W : ℕ) (h : Rectangular m W) :
    Rectangular (integral_image m) W := by
  intro row hrow
  unfold integral_image at hrow
  obtain ⟨r, hr, rfl⟩ := List.mem_map.mp hrow
  rw [cumsumRow_length]
  exact cumsumCols_rect m W h r hr

theorem integral_image_entry (m : Mat) (W : ℕ) (h : Rectangular m W) (i j : ℕ)
    (hi : i < m.length) (hj : j < W) :
    entry (integral_image m) i j = prefixSum m (i + 1) (j + 1) := by
  unfold integral_image
  have hlen : i < (cumsumCols m).length := by rw [cumsumCols_length]; exact hi
  have hmap : entry ((cumsumCols m).map cumsumRow) i j
      = (cumsumRow ((cumsumCols m).getD i [])).getD j 0 := by
    unfold entry
    congr 1
    rw [List.getD_eq_getElem?_getD, List.getD_eq_getElem?_getD,
      List.getElem?_eq_getElem (by rw [List.length_map]; exact hlen),
      List.getElem?_eq_getElem hlen]
    simp
  rw [hmap]
  have hrowW : ((cumsumCols m).getD i []).length = W := by
    have hmem : (cumsumCols m).getD i [] ∈ cumsumCols m := by
      rw [List.getD_eq_getElem?_getD, List.getElem?_eq_getElem hlen]
      exact List.getElem_mem hlen
    exact cumsumCols_rect m W h _ hmem
  unfold cumsumRow
  rw [cumsumRowAux_getD _ 0 j (by rw [hrowW]; exact hj), zero_add]
  unfold prefixSum
  rw [Finset.sum_comm]
  apply Finset.sum_congr rfl
  intro k hk
  have hkW : k < W := by
    have := Finset.mem_range.mp hk
    omega
  show entry (cumsumCols m) i k = ∑ x ∈ Finset.range (i + 1), entry m x k
  exact cumsumCols_entry m W h i k hi hkW

theorem prefixSum_succ_succ (m : Mat) (r c : ℕ) :
    prefixSum m (r + 1) (c + 1) =
      entry m r c + prefixSum m r (c + 1) + prefixSum m (r + 1) c - prefixSum m r c := by
  unfold prefixSum
  rw [Finset.sum_range_succ (fun i => ∑ j ∈ Finset.range (c + 1), entry m i j) r,
    Finset.sum_range_succ (fun i => ∑ j ∈ Finset.range c, entry m i j) r,
    Finset.sum_range_succ (fun j => entry m r j) c]
  ring

theorem sum_map_take_drop {α : Type} (f : α → ℤ) (d : α) (hf : f d = 0)
    (l : List α) : ∀ (a b : ℕ),
      (((l.drop a).take b).map f).sum = ∑ i ∈ Finset.range b, f (l.getD (a + i) d) := by
  induction l with
  | nil =>
    intro a b
    simp [List.getD_eq_getElem?_getD, hf]
  | cons x xs ih =>
    intro a b
    match a with
    | 0 =>
      match b with
      | 0 => simp
      | b + 1 =>
        simp only [List.drop_zero, List.take_succ_cons, List.map_cons, List.sum_cons]
        rw [show xs.take b = (xs.drop 0).take b by rw [List.drop_zero], ih 0 b,
          Finset.sum_range_succ' (fun i => f ((x :: xs).getD (0 + i) d)) b]
        simp only [Nat.zero_add, List.getD_cons_succ, List.getD_cons_zero]
        ring
    | a + 1 =>
      rw [List.drop_succ_cons, ih a b]
      apply Finset.sum_congr rfl
      intro i _
      congr 1
      rw [show a + 1 + i = (a + i) + 1 by omega, List.getD_cons_succ]

theorem matSum_slice2d (m : Mat) (r0 r1 c0 c1 : ℕ) :
    matSum (slice2d m r0 r1 c0 c1) =
      ∑ i ∈ Finset.range (r1 - r0), ∑ j ∈ Finset.range (c1 - c0),
        entry m (r0 + i) (c0 + j) := by
  unfold matSum slice2d
  rw [List.map_map,
    sum_map_take_drop (List.sum ∘ fun row => (row.drop c0).take (c1 - c0)) []
      (by simp) m r0 (r1 - r0)]
  apply Finset.sum_congr rfl
  intro i _
  simp only [Function.comp_apply]
  have hrow := sum_map_take_drop (fun v : ℤ => v) 0 rfl (m.getD (r0 + i) []) c0 (c1 - c0)
  rw [List.map_id'] at hrow
  rw [hrow]
  rfl

theorem prefixSum_fourCorner (m : Mat) (r0 r1 c0 c1 : ℕ) (hr : r0 ≤ r1) (hc : c0 ≤ c1) :
    prefixSum m r1 c1 - prefixSum m r0 c1 - prefixSum m r1 c0 + prefixSum m r0 c0 =
      matSum (slice2d m r0 r1 c0 c1) := by
  rw [matSum_slice2d,
    ← Finset.sum_Ico_eq_sum_range
      (fun i => ∑ j ∈ Finset.range (c1 - c0), entry m i (c0 + j)) r0 r1]
  have hinner : ∀ i, ∑ j ∈ Finset.range (c1 - c0), entry m i (c0 + j)
      = ∑ j ∈ Finset.Ico c0 c1, entry m i j :=
    fun i => (Finset.sum_Ico_eq_sum_range (fun j => entry m i j) c0 c1).symm
  simp only [hinner]
  rw [Finset.sum_Ico_eq_sub (fun i => ∑ j ∈ Finset.Ico c0 c1, entry m i j) hr]
  simp only [Finset.sum_Ico_eq_sub (fun j => entry m _ j) hc]
  rw [Finset.sum_sub_distrib, Finset.sum_sub_distrib]
  unfold prefixSum
  ring

theorem iiZ_eq_prefixSum (m : Mat) (W : ℕ) (h : Rectangular m W) :
    ∀ (x y : ℕ), x ≤ W → y ≤ m.length →
      iiZ m ((x : ℤ) - 1) ((y : ℤ) - 1) = prefixSum m y x := by
  intro x y hx hy
  match x, y with
  | 0, y =>
    unfold iiZ
    rw [if_pos (Or.inl (by omega))]
    unfold prefixSum
    simp
  | x + 1, 0 =>
    unfold iiZ
    rw [if_pos (Or.inr (by omega))]
    unfold prefixSum
    simp
  | x + 1, y + 1 =>
    unfold iiZ
    rw [if_neg (by push_cast; omega)]
    have hxt : (((x + 1 : ℕ) : ℤ) - 1).toNat = x := by omega
    have hyt : (((y + 1 : ℕ) : ℤ) - 1).toNat = y := by omega
    rw [hxt, hyt]
    exact integral_image_entry m W h y x (by omega) (by omega)

theorem entry_row_oob (m : Mat) (i j : ℕ) (h : m.length ≤ i) : entry m i j = 0 := by
  unfold entry
  simp [List.getD_eq_getElem?_getD, List.getElem?_eq_none h]

theorem getD_oob {α : Type} (l : List α) (n : ℕ) (d : α) (h : l.length ≤ n) :
    l.getD n d = d := by
  simp [List.getD_eq_getElem?_getD, List.getElem?_eq_none h]

theorem entry_col_oob (m : Mat) (W : ℕ) (h : Rectangular m W) (i j : ℕ)
    (hj : W ≤ j) : entry m i j = 0 := by
  unfold entry
  by_cases hi : i < m.length
  · have hmem : m.getD i [] ∈ m := by
      rw [List.getD_eq_getElem?_getD, List.getElem?_eq_getElem hi]
      exact List.getElem_mem hi
    exact getD_oob _ j 0 (by rw [h _ hmem]; exact hj)
  · rw [getD_oob m i [] (by omega)]
    exact getD_oob [] j 0 (by simp)

theorem sum_Ico_trim (F : ℕ → ℤ) (a b c : ℕ) (hF : ∀ i, c ≤ i → F i = 0) :
    ∑ i ∈ Finset.Ico a b, F i = ∑ i ∈ Finset.Ico a (min b c), F i := by
  refine (Finset.sum_subset ?_ ?_).symm
  · exact Finset.Ico_subset_Ico (le_refl a) (min_le_left b c)
  · intro i hi hni
    simp only [Finset.mem_Ico] at hi hni
    exact hF i (by omega)

theorem slice_sum_clipped (ii : Mat) (W : ℕ) (hrect : Rectangular ii W)
    (r0 r1 c0 c1 : ℕ) :
    matSum (slice2d ii r0 r1 c0 c1) =
      ∑ i ∈ Finset.Ico r0 (min r1 ii.length),
        ∑ j ∈ Finset.Ico c0 (min c1 W), entry ii i j := by
  rw [matSum_slice2d,
    ← Finset.sum_Ico_eq_sum_range
      (fun i => ∑ j ∈ Finset.range (c1 - c0), entry ii i (c0 + j)) r0 r1]
  have hinner : ∀ i, ∑ j ∈ Finset.range (c1 - c0), entry ii i (c0 + j)
      = ∑ j ∈ Finset.Ico c0 (min c1 W), entry ii i j := by
    intro i
    rw [← Finset.sum_Ico_eq_sum_range (fun j => entry ii i j) c0 c1]
    exact sum_Ico_trim (fun j => entry ii i j) c0 c1 W
      (fun j hj => entry_col_oob ii W hrect i j hj)
  simp only [hinner]
  exact sum_Ico_trim (fun i => ∑ j ∈ Finset.Ico c0 (min c1 W), entry ii i j)
    r0 r1 ii.length
    (fun i hi => Finset.sum_eq_zero (fun j _ => entry_row_oob ii i j hi))

/-- Claim C2 (amended): `integral_image` keeps its input's dimensions,
its entries satisfy the recurrence `I(x,y) = Image(x,y) + I(x-1,y) +
I(x,y-1) - I(x-1,y-1)` with indices below zero read as 0, the four-corner
inclusion-exclusion lookup over any in-range rectangle equals the
brute-force sum of the raw pixels of that rectangle, and on the 4×4
sample the integral image at (3,3) is 40 — the sum of all sixteen raw
pixels (not 36: the spec's arithmetic is off by 4). -/
theorem integral_image_recurrence_fourCorner (m : Mat) (W : ℕ)
    (hrect : Rectangular m W) (x y : ℕ) (hx : x < W) (hy : y < m.length)
    (x0 x1 y0 y1 : ℕ) (hx01 : x0 ≤ x1) (hx1 : x1 < W) (hy01 : y0 ≤ y1)
    (hy1 : y1 < m.length) :
    (integral_image m).length = m.length ∧
    Rectangular (integral_image m) W ∧
    iiZ m x y = entry m y x + iiZ m ((x : ℤ) - 1) y + iiZ m x ((y : ℤ) - 1)
      - iiZ m ((x : ℤ) - 1) ((y : ℤ) - 1) ∧
    iiZ m x1 y1 - iiZ m ((x0 : ℤ) - 1) y1 - iiZ m x1 ((y0 : ℤ) - 1)
      + iiZ m ((x0 : ℤ) - 1) ((y0 : ℤ) - 1)
      = matSum (slice2d m y0 (y1 + 1) x0 (x1 + 1)) ∧
    entry (integral_image sample4) 3 3 = 40 := by
  have corner : ∀ (a b : ℕ), a ≤ W → b ≤ m.length →
      iiZ m ((a : ℤ) - 1) ((b : ℤ) - 1) = prefixSum m b a :=
    fun a b ha hb => iiZ_eq_prefixSum m W hrect a b ha hb
  have cornerS : ∀ (a b : ℕ), a < W → b < m.length →
      iiZ m (a : ℤ) (b : ℤ) = prefixSum m (b + 1) (a + 1) := by
    intro a b ha hb
    have e1 : (a : ℤ) = ((a + 1 : ℕ) : ℤ) - 1 := by push_cast; ring
    have e2 : (b : ℤ) = ((b + 1 : ℕ) : ℤ) - 1 := by push_cast; ring
    rw [e1, e2]
    exact corner (a + 1) (b + 1) (by omega) (by omega)
  have cornerX : ∀ (a b : ℕ), a ≤ W → b < m.length →
      iiZ m ((a : ℤ) - 1) (b : ℤ) = prefixSum m (b + 1) a := by
    intro a b ha hb
    have e2 : (b : ℤ) = ((b + 1 : ℕ) : ℤ) - 1 := by push_cast; ring
    rw [e2]
    exact corner a (b + 1) ha (by omega)
  have cornerY : ∀ (a b : ℕ), a < W → b ≤ m.length →
      iiZ m (a : ℤ) ((b : ℤ) - 1) = prefixSum m b (a + 1) := by
    intro a b ha hb
    have e1 : (a : ℤ) = ((a + 1 : ℕ) : ℤ) - 1 := by push_cast; ring
    rw [e1]
    exact corner (a + 1) b (by omega) hb
  refine ⟨integral_image_length m, integral_image_rect m W hrect, ?_, ?_, by decide⟩
  · rw [cornerS x y hx hy, cornerX x y (by omega) hy, cornerY x y hx (by omega),
      corner x y (by omega) (by omega), prefixSum_succ_succ m y x]
    ring
  · rw [cornerS x1 y1 hx1 hy1, cornerX x0 y1 (by omega) hy1,
      cornerY x1 y0 hx1 (by omega), corner x0 y0 (by omega) (by omega)]
    have := prefixSum_fourCorner m y0 (y1 + 1) x0 (x1 + 1) (by omega) (by omega)
    linarith

/-- Counterexample for C2 as stated: the integral image of the 4×4 sample
has value 40 at (3,3), not the claimed 36 (indeed 40 is the sum of all
sixteen raw pixels). -/
theorem integral_image_sample4_entry_ne_36 :
    entry (integral_image sample4) 3 3 = 40 ∧
    entry (integral_image sample4) 3 3 ≠ 36 ∧
    matSum (slice2d sample4 0 4 0 4) = 40 := by
  decide

/-- Witness for C2: the 4×4 sample, recurrence point (1,1) and the
rectangle with corners (1,1)–(2,2). -/
theorem integral_image_recurrence_fourCorner_witness :
    Rectangular sample4 4 ∧ (1 < 4 ∧ 1 < sample4.length) ∧
    (1 ≤ 2 ∧ 2 < 4 ∧ 1 ≤ 2 ∧ 2 < sample4.length) ∧
    ((integral_image sample4).length = sample4.length ∧
      Rectangular (integral_image sample4) 4 ∧
      iiZ sample4 1 1 = entry sample4 1 1 + iiZ sample4 (((1 : ℕ) : ℤ) - 1) 1
        + iiZ sample4 1 (((1 : ℕ) : ℤ) - 1)
        - iiZ sample4 (((1 : ℕ) : ℤ) - 1) (((1 : ℕ) : ℤ) - 1) ∧
      iiZ sample4 2 2 - iiZ sample4 (((1 : ℕ) : ℤ) - 1) 2
        - iiZ sample4 2 (((1 : ℕ) : ℤ) - 1)
        + iiZ sample4 (((1 : ℕ) : ℤ) - 1) (((1 : ℕ) : ℤ) - 1)
        = matSum (slice2d sample4 1 (2 + 1) 1 (2 + 1)) ∧
      entry (integral_image sample4) 3 3 = 40) :=
  ⟨by unfold Rectangular; decide, ⟨by decide, by decide⟩,
    ⟨by decide, by decide, by decide, by decide⟩,
    integral_image_recurrence_fourCorner sample4 4 (by unfold Rectangular; decide) 1 1 (by decide)
      (by decide) 1 2 1 2 (by decide) (by decide) (by decide) (by decide)⟩

/-- Claim C7 (amended): `compute` never fails on an out-of-range rectangle;
numpy slicing silently clamps each half to the image extent, so the result
is the raw two-rect difference over the clipped regions. -/
theorem compute_clips_rect_to_image (f : HaarFeature) (ii : Mat) (W : ℕ)
    (hrect : Rectangular ii W) (htype : f.feature_type = FeatureType.twoRect) :
    f.compute ii =
      (∑ i ∈ Finset.Ico f.position.2 (min (f.position.2 + f.height) ii.length),
        ∑ j ∈ Finset.Ico f.position.1 (min (f.position.1 + f.width / 2) W),
          entry ii i j) -
      (∑ i ∈ Finset.Ico f.position.2 (min (f.position.2 + f.height) ii.length),
        ∑ j ∈ Finset.Ico (f.position.1 + f.width / 2) (min (f.position.1 + f.width) W),
          entry ii i j) := by
  obtain ⟨ft, ⟨x, y⟩, w, h⟩ := f
  simp only at htype
  subst htype
  simp only [HaarFeature.compute]
  rw [slice_sum_clipped ii W hrect y (y + h) x (x + w / 2),
    slice_sum_clipped ii W hrect y (y + h) (x + w / 2) (x + w)]

/-- Counterexample for C7 as stated: the 4×4 feature at (0,0) exceeds the
1×1 integral image `[[1]]`; the spec-modelled checked variant reports
OutOfBounds, but the source's `compute` silently returns the value 1. -/
theorem compute_out_of_bounds_returns_value :
    computeSpec featX [[1]] = Except.error HaarError.outOfBounds ∧
    HaarFeature.compute featX [[1]] = 1 :=
  ⟨rfl, rfl⟩

/-- Witness for C7: the 4×4 feature clipped against the 2×2 image. -/
theorem compute_clips_witness :
    Rectangular rect2 2 ∧ featX.feature_type = FeatureType.twoRect ∧
    featX.compute rect2 =
      (∑ i ∈ Finset.Ico featX.position.2 (min (featX.position.2 + featX.height) rect2.length),
        ∑ j ∈ Finset.Ico featX.position.1 (min (featX.position.1 + featX.width / 2) 2),
          entry rect2 i j) -
      (∑ i ∈ Finset.Ico featX.position.2 (min (featX.position.2 + featX.height) rect2.length),
        ∑ j ∈ Finset.Ico (featX.position.1 + featX.width / 2) (min (featX.position.1 + featX.width) 2),
          entry rect2 i j) :=
  ⟨by unfold Rectangular; decide, rfl,
    compute_clips_rect_to_image featX rect2 2 (by unfold Rectangular; decide) rfl⟩
